import Mathlib

/-!
Verification of the JSON:API adapter core (`packages/adapter/addon/json-api.js`):
the field-tracking cache (`hasSomeFields`, `equalFields`, `captureFields`,
`shouldReloadRecord`, `findRecord`), the coalesced `findMany` request, the
`pathForType` URL path segment, and the HTTP response classifier described by
the specification.

JavaScript values are embedded shallowly: a `fields` object (a mapping from
field-group name to a comma-delimited string of field names) becomes an
association list `List (String × String)`; the per-record history stored in the
`FieldsForRecord` WeakMap becomes an `Option (List FieldsMap)` (`none` when the
record has never been seen); the tri-state JavaScript variable `isEqual`
(which may remain `undefined`) becomes an `Option Bool`.
-/

/-- A `fields` mapping from adapterOptions: group key ↦ comma-delimited field string. -/
abbrev FieldsMap := List (String × String)

/-- JavaScript property read `obj[key]` on a fields object, embedded as
association-list lookup (object keys are unique, so first match suffices). -/
def lookupField (m : FieldsMap) (k : String) : Option String :=
  (m.find? (fun p => p.1 == k)).map (fun p => p.2)

/-- JavaScript `String.prototype.split(',')` over the string's characters:
segments between commas, in order. As in JavaScript, the empty string yields
one empty segment, and a trailing comma yields a trailing empty segment. -/
def splitComma : List Char → List (List Char)
  | [] => [[]]
  | c :: cs =>
    let r := splitComma cs
    if c = ',' then [] :: r
    else
      match r with
      | [] => [[c]]
      | seg :: rest => (c :: seg) :: rest

/-- JavaScript `String.prototype.trim()`: strip leading and trailing
whitespace. -/
def trimChars (l : List Char) : List Char :=
  ((l.dropWhile Char.isWhitespace).reverse.dropWhile Char.isWhitespace).reverse

/-- `s.split(',').map(field => field.trim())` from `hasSomeFields`. -/
def splitTrim (s : String) : List String :=
  (splitComma s.data).map (fun seg => String.mk (trimChars seg))

/-- Embedding of `hasSomeFields(cachedFields, snapshotFields)` from json-api.js,
including its second (length-guarded) disjunct verbatim. -/
def hasSomeFields (cachedFields snapshotFields : String) : Bool :=
  let listOfCachedFields := splitTrim cachedFields
  let listOfSnapshotFields := splitTrim snapshotFields
  listOfSnapshotFields.all (fun i => listOfCachedFields.contains i) ||
    (decide (listOfSnapshotFields.length < listOfCachedFields.length) &&
      listOfSnapshotFields.all (fun i => listOfCachedFields.contains i))

/-- The plain requested-subset-of-cached test, written from the specification's
words ("every trimmed field in snapshotFields occurs in cachedFields"), to be
compared with `hasSomeFields`. -/
def requestedSubsetOfCached (cachedFields snapshotFields : String) : Bool :=
  (splitTrim snapshotFields).all (fun i => (splitTrim cachedFields).contains i)

/-- One iteration of the `for (let key in snapshotFields)` loop body of
`equalFields`: `entry[key]` must be truthy (present and a non-empty string),
and then `hasSomeFields(entry[key], snapshotFields[key])` decides the key. -/
def pairCheck (entry : FieldsMap) (p : String × String) : Bool :=
  match lookupField entry p.1 with
  | some c => if c = "" then false else hasSomeFields c p.2
  | none => false

/-- The `for (let key in snapshotFields)` loop of `equalFields`, with its
`break` on the first `false` and its final value of `isEqual`: `none` models
the JavaScript `undefined` left when the request has no keys. -/
def entryIsEqual (entry : FieldsMap) : FieldsMap → Option Bool
  | [] => none
  | p :: rest =>
    if pairCheck entry p then
      match rest with
      | [] => some true
      | q :: qs => entryIsEqual entry (q :: qs)
    else some false

/-- JavaScript truthiness of the possibly-`undefined` `isEqual` returned to
`Array.prototype.some`. -/
def jsTruthy : Option Bool → Bool
  | some b => b
  | none => false

/-- Embedding of `equalFields(cachedFields, snapshotFields)`:
`cachedFields.some(entry => ...)`. -/
def equalFields (cachedFields : List FieldsMap) (snapshotFields : FieldsMap) : Bool :=
  cachedFields.any (fun entry => jsTruthy (entryIsEqual entry snapshotFields))

/-- Embedding of `captureFields(record, snapshotFields)`. The record argument
is replaced by the record's current entry in the `FieldsForRecord` WeakMap
(`none` when absent); the result pairs the returned boolean with the history
stored back into the map. `cachedFields && cachedFields.length` is truthy
exactly when the entry exists and is a non-empty list. -/
def captureFields (cached : Option (List FieldsMap)) (snapshotFields : FieldsMap) :
    Bool × List FieldsMap :=
  match cached with
  | some cachedFields =>
    if cachedFields.isEmpty = false then
      if equalFields cachedFields snapshotFields then (false, cachedFields)
      else (true, cachedFields ++ [snapshotFields])
    else (true, [snapshotFields])
  | none => (true, [snapshotFields])

/-- Embedding of `shouldReloadRecord(store, snapshot)`: the adapter flag
`supportsJSONAPIFields`, the snapshot's `adapterOptions.fields` (truthy exactly
when present, i.e. `some`), and the record's cached history; returns the
boolean together with the (possibly updated) history. -/
def shouldReloadRecord (supportsJSONAPIFields : Bool) (snapshotFields : Option FieldsMap)
    (cached : Option (List FieldsMap)) : Bool × Option (List FieldsMap) :=
  if supportsJSONAPIFields then
    match snapshotFields with
    | some fields =>
      let r := captureFields cached fields
      (r.1, some r.2)
    | none => (false, cached)
  else (false, cached)

/-- The effect of `findRecord(store, type, id, snapshot)` on the field history:
it calls `captureFields` exactly when `adapterOptions.fields` is truthy and
`supportsJSONAPIFields` is set (otherwise it only issues a deprecation). -/
def findRecordFields (supportsJSONAPIFields : Bool) (snapshotFields : Option FieldsMap)
    (cached : Option (List FieldsMap)) : Option (List FieldsMap) :=
  match snapshotFields with
  | some fields =>
    if supportsJSONAPIFields then some (captureFields cached fields).2 else cached
  | none => cached

/-- The history list a cache entry denotes (`none` denotes no entries). -/
def histOf (cached : Option (List FieldsMap)) : List FieldsMap :=
  cached.getD []

/-- The specification's coverage relation, written from its words: an entry
covers a request when, for every field-group key present in the request, the
request's field set is a subset of (or equal to) the cached field set for that
key. -/
def coversSpec (entry request : FieldsMap) : Bool :=
  request.all (fun p =>
    match lookupField entry p.1 with
    | some c => (splitTrim p.2).all (fun f => (splitTrim c).contains f)
    | none => false)

/-- Coverage as the code actually decides it: the request has at least one
group key, and every key passes the loop-body check (`entry[key]` truthy and
`hasSomeFields`). -/
def coversCode (entry request : FieldsMap) : Bool :=
  (!request.isEmpty) && request.all (fun p => pairCheck entry p)

/-- Modelled from the spec: the external inflection collaborator `dasherize`
(from `@ember/string`, outside this repository), rendered as the usual
camelCase-to-dash-case transform. The claims about `pathForType` depend only
on it being a fixed pure function. -/
def dasherize (s : String) : String :=
  String.mk (s.data.foldr
    (fun c acc => if c.isUpper then '-' :: c.toLower :: acc else c :: acc) [])

/-- Modelled from the spec: the external inflection collaborator `pluralize`
(from `ember-inflector`, outside this repository), rendered as the naive
append-an-s rule. The claims about `pathForType` depend only on it being a
fixed pure function. -/
def pluralize (s : String) : String :=
  s ++ "s"

/-- Embedding of `pathForType(modelName)` from json-api.js. -/
def pathForType (modelName : String) : String :=
  let dasherized := dasherize modelName
  pluralize dasherized

/-- The adapter's only mutable state in this core: the `FieldsForRecord` side
table, keyed by record identity (records numbered by `Nat`). -/
abbrev AdapterState := List (Nat × List FieldsMap)

/-- `pathForType` as a state-passing operation on the adapter: the method body
reads no adapter property and assigns none, so the explicit state threads
through untouched. -/
def pathForTypeOp (st : AdapterState) (modelName : String) : String × AdapterState :=
  (pathForType modelName, st)

/-- `Array.prototype.join(',')` as used by `findMany` on the ids array. -/
def joinComma : List String → String
  | [] => ""
  | x :: xs => xs.foldl (fun acc y => acc ++ "," ++ y) x

/-- Modelled from the spec: `buildURL` lives in the BuildURLMixin outside this
repository's sources; per §4.1 it applies host, then namespace, then the
pluralized path segment, then an id segment joined with "/" that is omitted
for collection-level operations (the coalesced `findMany` selects ids through
the query string instead). -/
def buildURL (host ns modelName : String) (ids : List String)
    (operationKind : String) : String :=
  let base :=
    (if host = "" then "" else host) ++
      (if ns = "" then "" else "/" ++ ns) ++
      "/" ++ pathForType modelName
  if operationKind = "findMany" || operationKind = "findAll" ||
      operationKind = "query" || operationKind = "queryRecord" ||
      operationKind = "createRecord" then
    base
  else
    base ++ "/" ++ String.intercalate "/" ids

/-- One outbound HTTP request descriptor, as dispatched by `this.ajax`:
verb, URL, and the `data.filter.id` query value for coalesced lookups. -/
structure AjaxCall where
  url : String
  verb : String
  filterId : String
  deriving DecidableEq, Repr

/-- Embedding of `findMany(store, type, ids, snapshots)`: builds the URL via
`buildURL` with operation kind "findMany" and dispatches a single GET with
`data: \x7b filter: \x7b id: ids.join(',') \x7d \x7d`. The result is the list
of dispatched requests (the method makes exactly one `ajax` call). -/
def findMany (host ns modelName : String) (ids : List String) : List AjaxCall :=
  let url := buildURL host ns modelName ids "findMany"
  [{ url := url, verb := "GET", filterId := joinComma ids }]

/-- A raw response body, as far as the classifier inspects it: the `errors`
key and the rest of the document (primary data and meta). -/
structure Body where
  errors : List String
  data : Option String
  meta : Option String
  deriving DecidableEq, Repr

/-- The three terminal outcomes of a dispatched request. -/
inductive ResponseOutcome where
  | success (payload : Body)
  | invalid (errors : List String)
  | adapterError (status : Nat) (detail : String)
  deriving DecidableEq, Repr

/-- Modelled from the spec: the best-effort detail message built for an
`AdapterError` from the status code and response body. -/
def detailMessage (status : Nat) (body : Body) : String :=
  "request rejected with status " ++ toString status ++
    (match body.data with
     | some d => ": " ++ d
     | none => "")

/-- Modelled from the spec: the response classifier of HTTP Dispatch
(`handleResponse` lives in the RESTAdapter outside this repository's sources).
Status 200-299 or 304 is Success carrying the raw body; 422 is Invalid
carrying only the body's `errors` key; anything else is AdapterError carrying
the status and a detail message. -/
def classify (status : Nat) (body : Body) : ResponseOutcome :=
  if (200 ≤ status ∧ status ≤ 299) ∨ status = 304 then
    ResponseOutcome.success body
  else if status = 422 then
    ResponseOutcome.invalid body.errors
  else ResponseOutcome.adapterError status (detailMessage status body)

/-- A transport-level result: either an HTTP response or a transport failure
with a reason. -/
inductive TransportResult where
  | response (status : Nat) (body : Body)
  | failure (reason : String)
  deriving DecidableEq, Repr

/-- Modelled from the spec: classification lifted to transport results; a
transport failure yields an AdapterError built from the failure reason (no
HTTP status was received, recorded as 0). -/
def classifyTransport : TransportResult → ResponseOutcome
  | TransportResult.response status body => classify status body
  | TransportResult.failure reason =>
    ResponseOutcome.adapterError 0 ("network failure: " ++ reason)

/-! ## Helper lemmas -/

theorem hasSomeFields_eq_subset (c s : String) :
    hasSomeFields c s = requestedSubsetOfCached c s := by
  show ((splitTrim s).all (fun i => (splitTrim c).contains i) ||
      (decide ((splitTrim s).length < (splitTrim c).length) &&
        (splitTrim s).all (fun i => (splitTrim c).contains i))) =
    (splitTrim s).all (fun i => (splitTrim c).contains i)
  cases h : (splitTrim s).all (fun i => (splitTrim c).contains i) <;> simp

theorem jsTruthy_eq_true (o : Option Bool) : jsTruthy o = true ↔ o = some true := by
  cases o <;> simp [jsTruthy]

theorem entryIsEqual_cons (e : FieldsMap) (p : String × String) (rest : FieldsMap) :
    entryIsEqual e (p :: rest) =
      if pairCheck e p then
        match rest with
        | [] => some true
        | q :: qs => entryIsEqual e (q :: qs)
      else some false := by
  cases rest <;> rfl

theorem entryIsEqual_some_true (e : FieldsMap) (req : FieldsMap) :
    entryIsEqual e req = some true ↔ req ≠ [] ∧ ∀ p ∈ req, pairCheck e p = true := by
  induction req with
  | nil => simp [entryIsEqual]
  | cons p rest ih =>
    rw [entryIsEqual_cons]
    cases h : pairCheck e p with
    | false =>
      rw [if_neg (by simp [h])]
      constructor
      · intro hcontra; exact absurd (Option.some.inj hcontra) (by simp)
      · rintro ⟨-, hall⟩
        have := hall p (List.mem_cons_self p rest)
        rw [h] at this
        exact absurd this (by simp)
    | true =>
      rw [if_pos (by simp [h])]
      cases rest with
      | nil => simp [h]
      | cons q qs =>
        rw [ih]
        constructor
        · rintro ⟨-, hall⟩
          refine ⟨by simp, ?_⟩
          intro p' hp'
          rcases List.mem_cons.mp hp' with h1 | h2
          · rw [h1]; exact h
          · exact hall p' h2
        · rintro ⟨-, hall⟩
          refine ⟨by simp, ?_⟩
          intro p' hp'
          exact hall p' (List.mem_cons_of_mem p hp')

theorem equalFields_eq_true (hist : List FieldsMap) (req : FieldsMap) :
    equalFields hist req = true ↔ ∃ e ∈ hist, entryIsEqual e req = some true := by
  unfold equalFields
  rw [List.any_eq_true]
  constructor
  · rintro ⟨e, he, ht⟩
    exact ⟨e, he, (jsTruthy_eq_true _).mp ht⟩
  · rintro ⟨e, he, ht⟩
    exact ⟨e, he, (jsTruthy_eq_true _).mpr ht⟩

theorem equalFields_nil_request (hist : List FieldsMap) :
    equalFields hist ([] : FieldsMap) = false := by
  unfold equalFields
  rw [List.any_eq_false]
  intro e _
  simp [entryIsEqual, jsTruthy]

theorem captureFields_appends (cached : Option (List FieldsMap)) (req : FieldsMap) :
    ∃ t, (captureFields cached req).2 = histOf cached ++ t ∧ t.length ≤ 1 := by
  match cached with
  | none => exact ⟨[req], rfl, by simp⟩
  | some [] => exact ⟨[req], rfl, by simp⟩
  | some (a :: as) =>
    cases h : equalFields (a :: as) req with
    | true =>
      refine ⟨[], ?_, by simp⟩
      simp [captureFields, histOf, h]
    | false =>
      refine ⟨[req], ?_, by simp⟩
      simp [captureFields, histOf, h]

theorem intercalate_go_foldl (xs : List String) : ∀ acc : String,
    String.intercalate.go acc "," xs = xs.foldl (fun a y => a ++ "," ++ y) acc := by
  induction xs with
  | nil => intro acc; rfl
  | cons a as ih =>
    intro acc
    simp only [String.intercalate.go, List.foldl]
    exact ih (acc ++ "," ++ a)

theorem joinComma_eq_intercalate (l : List String) :
    joinComma l = String.intercalate "," l := by
  cases l with
  | nil => rfl
  | cons x xs =>
    simp only [joinComma, String.intercalate]
    exact (intercalate_go_foldl xs x).symm

/-! ## Claim theorems -/

/-- C2: `hasSomeFields(cachedFields, snapshotFields)` returns true iff every
trimmed field in snapshotFields occurs in the trimmed field list of
cachedFields; the length-comparison disjunct is redundant and the function is
extensionally equal to the plain requested-subset-of-cached test. -/
theorem claim_hasSomeFields_is_subset_test (c s : String) :
    hasSomeFields c s = requestedSubsetOfCached c s ∧
    (hasSomeFields c s = true ↔ ∀ f ∈ splitTrim s, f ∈ splitTrim c) := by
  refine ⟨hasSomeFields_eq_subset c s, ?_⟩
  rw [hasSomeFields_eq_subset c s]
  unfold requestedSubsetOfCached
  rw [List.all_eq_true]
  constructor
  · intro hall f hf
    have := hall f hf
    simpa using this
  · intro hall f hf
    simpa using hall f hf

/-- C4: with `supportsJSONAPIFields = false`, `shouldReloadRecord` returns
false and leaves the field history untouched, for every snapshot
`adapterOptions.fields` value and every prior history state. -/
theorem claim_shouldReloadRecord_disabled (snapshotFields : Option FieldsMap)
    (cached : Option (List FieldsMap)) :
    shouldReloadRecord false snapshotFields cached = (false, cached) := by
  simp [shouldReloadRecord]

/-- C5: for a record with no prior field history — no entry in the
`FieldsForRecord` map, or an empty entry list — `captureFields` records the
requested mapping as the record's single history entry and returns true. -/
theorem claim_captureFields_no_history (req : FieldsMap) :
    captureFields none req = (true, [req]) ∧
    captureFields (some []) req = (true, [req]) := by
  exact ⟨rfl, rfl⟩

/-- C9: `pathForType` is deterministic and side-effect-free: as a
state-passing operation it returns `pluralize (dasherize modelName)`, yields
the same path segment regardless of the adapter state, and leaves that state
unchanged. -/
theorem claim_pathForType_pure (st st' : AdapterState) (modelName : String) :
    pathForTypeOp st modelName = (pluralize (dasherize modelName), st) ∧
    (pathForTypeOp st modelName).1 = (pathForTypeOp st' modelName).1 ∧
    (pathForTypeOp st modelName).2 = st ∧
    pathForType modelName = pluralize (dasherize modelName) :=
  ⟨rfl, rfl, rfl, rfl⟩

/-- C10: a call to `captureFields` with an empty field mapping returns true
and appends the empty mapping as a new history entry, for every prior history
state; an empty request is never covered, because `equalFields` evaluates to
a non-true value (`isEqual` stays undefined) for a request with no keys. -/
theorem claim_captureFields_empty_request (cached : Option (List FieldsMap)) :
    captureFields cached ([] : FieldsMap) = (true, histOf cached ++ [[]]) ∧
    ∀ hist : List FieldsMap, equalFields hist ([] : FieldsMap) = false := by
  refine ⟨?_, equalFields_nil_request⟩
  match cached with
  | none => rfl
  | some [] => rfl
  | some (a :: as) =>
    simp [captureFields, histOf, equalFields_nil_request]

/-- C1 counterexample: with non-empty history whose single entry is
comments ↦ "author", the empty requested mapping is covered in the
specification's sense (vacuously, every key present in the request is a subset
of the entry's cached set), yet `captureFields` returns true and appends a new
history entry rather than returning false with the history unchanged. -/
theorem claim_captureFields_covered_cex :
    ([("comments", "author")] : FieldsMap) ∈ [[("comments", "author")]] ∧
    coversSpec [("comments", "author")] ([] : FieldsMap) = true ∧
    captureFields (some [[("comments", "author")]]) ([] : FieldsMap) =
      (true, [[("comments", "author")], []]) ∧
    captureFields (some [[("comments", "author")]]) ([] : FieldsMap) ≠
      (false, [[("comments", "author")]]) := by
  decide

/-- C1 (amended): for a record with non-empty field history, if some single
prior entry covers the request in the sense the loop actually checks — the
request has at least one group key, and for every group key of the request the
entry holds a non-empty cached field string whose field set contains every
requested field for that key — then `captureFields` returns false and the
history is unchanged; in particular a repeated call with a field mapping
identical to such a prior entry returns false. -/
theorem claim_captureFields_covered_skips (hist : List FieldsMap) (req : FieldsMap)
    (hne : hist ≠ []) (hcov : ∃ e ∈ hist, coversCode e req = true) :
    captureFields (some hist) req = (false, hist) := by
  obtain ⟨e, he, hc⟩ := hcov
  rw [coversCode, Bool.and_eq_true] at hc
  obtain ⟨hne', hall⟩ := hc
  have hreq : req ≠ [] := by
    intro h0
    rw [h0] at hne'
    exact absurd hne' (by decide)
  rw [List.all_eq_true] at hall
  have hentry : entryIsEqual e req = some true :=
    (entryIsEqual_some_true e req).mpr ⟨hreq, hall⟩
  have heq : equalFields hist req = true :=
    (equalFields_eq_true hist req).mpr ⟨e, he, hentry⟩
  match hist, hne with
  | a :: as, _ => simp [captureFields, heq]

/-- Witness for C1 (amended): a second call with the identical mapping
comments ↦ "author" is skipped. -/
theorem claim_captureFields_covered_skips_witness :
    captureFields (some [[("comments", "author")]]) [("comments", "author")] =
      (false, [[("comments", "author")]]) :=
  claim_captureFields_covered_skips _ _ (by decide)
    ⟨[("comments", "author")], by decide, by decide⟩

/-- C3: for a record with non-empty field history, a request holding a group
key whose requested field set is not a subset of the corresponding cached set
in any prior history entry makes `captureFields` return true and append the
requested mapping as a new history entry. -/
theorem claim_captureFields_larger_fetches (hist : List FieldsMap) (req : FieldsMap)
    (hne : hist ≠ []) (k v : String) (hkv : (k, v) ∈ req)
    (hbig : ∀ e ∈ hist, ∀ c, lookupField e k = some c →
      (splitTrim v).all (fun f => (splitTrim c).contains f) = false) :
    captureFields (some hist) req = (true, hist ++ [req]) := by
  have hpair : ∀ e ∈ hist, pairCheck e (k, v) = false := by
    intro e he
    show (match lookupField e k with
      | some c => if c = "" then false else hasSomeFields c v
      | none => false) = false
    match hm : lookupField e k with
    | none => rfl
    | some c =>
      show (if c = "" then false else hasSomeFields c v) = false
      by_cases hc : c = ""
      · rw [if_pos hc]
      · rw [if_neg hc, hasSomeFields_eq_subset]
        exact hbig e he c hm
  have hnotequal : ∀ e ∈ hist, entryIsEqual e req ≠ some true := by
    intro e he habs
    have := ((entryIsEqual_some_true e req).mp habs).2 (k, v) hkv
    rw [hpair e he] at this
    exact absurd this (by simp)
  have heq : equalFields hist req = false := by
    cases h : equalFields hist req with
    | false => rfl
    | true =>
      obtain ⟨e, he, ht⟩ := (equalFields_eq_true hist req).mp h
      exact absurd ht (hnotequal e he)
  match hist, hne with
  | a :: as, _ => simp [captureFields, heq]

/-- Witness for C3: with cached entry comments ↦ "author", the strictly larger
request comments ↦ "author,body" must fetch and is appended to the history. -/
theorem claim_captureFields_larger_fetches_witness :
    captureFields (some [[("comments", "author")]]) [("comments", "author,body")] =
      (true, [[("comments", "author")], [("comments", "author,body")]]) := by
  refine claim_captureFields_larger_fetches _ _ (by decide) "comments" "author,body"
    (by decide) ?_
  intro e he c hc
  have he' : e = [("comments", "author")] := by simpa using he
  rw [he'] at hc
  have hlook : lookupField [("comments", "author")] "comments" = some "author" := rfl
  rw [hlook] at hc
  have hc' : c = "author" := (Option.some.inj hc).symm
  rw [hc']
  decide

/-- C6: the field history never shrinks: one step of `captureFields` — also
when reached through `shouldReloadRecord` or `findRecord` — leaves every
previously recorded entry in place, in order, and at most appends one new
entry. -/
theorem claim_fieldHistory_never_shrinks (cached : Option (List FieldsMap))
    (req : FieldsMap) (supports : Bool) (snapshotFields : Option FieldsMap) :
    (∃ t, (captureFields cached req).2 = histOf cached ++ t ∧ t.length ≤ 1) ∧
    (∃ t, histOf (shouldReloadRecord supports snapshotFields cached).2 =
      histOf cached ++ t ∧ t.length ≤ 1) ∧
    (∃ t, histOf (findRecordFields supports snapshotFields cached) =
      histOf cached ++ t ∧ t.length ≤ 1) := by
  refine ⟨captureFields_appends cached req, ?_, ?_⟩
  · cases supports with
    | false => exact ⟨[], by simp [shouldReloadRecord], by simp⟩
    | true =>
      cases snapshotFields with
      | none => exact ⟨[], by simp [shouldReloadRecord], by simp⟩
      | some f =>
        obtain ⟨t, ht, hl⟩ := captureFields_appends cached f
        refine ⟨t, ?_, hl⟩
        show histOf (some (captureFields cached f).2) = histOf cached ++ t
        exact ht
  · cases snapshotFields with
    | none => exact ⟨[], by simp [findRecordFields], by simp⟩
    | some f =>
      cases supports with
      | false => exact ⟨[], by simp [findRecordFields], by simp⟩
      | true =>
        obtain ⟨t, ht, hl⟩ := captureFields_appends cached f
        refine ⟨t, ?_, hl⟩
        show histOf (some (captureFields cached f).2) = histOf cached ++ t
        exact ht

/-- C7: the response classifier maps each HTTP status to exactly one outcome:
2xx or 304 is Success carrying the raw body unmodified, 422 is Invalid
carrying only the body's errors key, anything else is AdapterError carrying
the status and detail message, and a transport failure is an AdapterError
built from the failure reason. -/
theorem claim_classify_outcomes (status : Nat) (body : Body) :
    ((200 ≤ status ∧ status ≤ 299) ∨ status = 304 →
      classify status body = ResponseOutcome.success body) ∧
    (status = 422 → classify status body = ResponseOutcome.invalid body.errors) ∧
    (¬ ((200 ≤ status ∧ status ≤ 299) ∨ status = 304) → status ≠ 422 →
      classify status body =
        ResponseOutcome.adapterError status (detailMessage status body)) ∧
    (∀ reason, classifyTransport (TransportResult.failure reason) =
      ResponseOutcome.adapterError 0 ("network failure: " ++ reason)) := by
  refine ⟨?_, ?_, ?_, fun reason => rfl⟩
  · intro h
    unfold classify
    rw [if_pos h]
  · intro h
    subst h
    rfl
  · intro h1 h2
    unfold classify
    rw [if_neg h1, if_neg h2]

/-- Witness for C7: a 422 response with both an errors key and primary data
classifies as Invalid carrying only the errors. -/
theorem claim_classify_outcomes_witness :
    classify 422 ⟨["title must not be blank"], some "stale data", none⟩ =
      ResponseOutcome.invalid ["title must not be blank"] :=
  (claim_classify_outcomes 422 ⟨["title must not be blank"], some "stale data", none⟩).2.1 rfl

/-- C8: for a non-empty id list, `findMany` dispatches exactly one GET request,
with URL built by `buildURL` for operation kind "findMany" and query data
filter.id equal to the ids joined with commas in their given order. -/
theorem claim_findMany_single_request (host ns modelName : String)
    (ids : List String) (_hne : ids ≠ []) :
    (findMany host ns modelName ids).length = 1 ∧
    ∀ r ∈ findMany host ns modelName ids,
      r.verb = "GET" ∧ r.url = buildURL host ns modelName ids "findMany" ∧
      r.filterId = String.intercalate "," ids := by
  refine ⟨rfl, ?_⟩
  intro r hr
  have hr' : r = AjaxCall.mk (buildURL host ns modelName ids "findMany") "GET"
      (joinComma ids) := by simpa [findMany] using hr
  subst hr'
  exact ⟨rfl, rfl, joinComma_eq_intercalate ids⟩

/-- Witness for C8: ids 1 and 2 scheduled together produce one GET whose
filter id string is joined in order, and that joined string is "1,2". -/
theorem claim_findMany_single_request_witness :
    ((findMany "" "" "comment" ["1", "2"]).length = 1 ∧
      ∀ r ∈ findMany "" "" "comment" ["1", "2"],
        r.verb = "GET" ∧ r.url = buildURL "" "" "comment" ["1", "2"] "findMany" ∧
        r.filterId = String.intercalate "," ["1", "2"]) ∧
    String.intercalate "," ["1", "2"] = "1,2" :=
  ⟨claim_findMany_single_request "" "" "comment" ["1", "2"] (by decide), rfl⟩
